import Mathlib

/-!
Verification of the word-bingo card-matching and round-adjudication engine.

Shallow embedding of the repository sources:
* `src/utils/gameLogic.ts` — `LIMITES`, `processInputData`, `generateRandomRounds`,
  `Carton`, `Idioma`, `mergeSort`, `merge`, `binarySearchMark`, `checkWinnersGreedy`;
* `src/app/page.tsx` — the session orchestration around `handleCantarPalabra`.

Conventions of the embedding:
* TypeScript arrays become `List`; in-place mutation becomes value-returning functions;
  `Set<string>` inputs become `List String` used only through membership and emptiness.
* JavaScript string comparison (`<` on strings, code-unit lexicographic) is modelled by
  Lean's lexicographic order on `String`; the two agree on all words without characters
  beyond the basic multilingual plane.
-/

namespace Bingo

/-- The closed language set: `type Idioma = "SP" | "EN" | "PT" | "DT"`. -/
inductive Idioma where
  | SP
  | EN
  | PT
  | DT
deriving DecidableEq, Repr

/-- `LIMITES` — maximum words allowed per language. -/
def LIMITES : Idioma → Nat
  | .SP => 24
  | .EN => 14
  | .PT => 20
  | .DT => 10

/-- `interface Carton` from gameLogic.ts. The optional TS field `yaGano?: boolean`
is modelled as a `Bool` whose default `false` stands for `undefined`. -/
structure Carton where
  id : String
  jugador : String
  idioma : Idioma
  palabras : List String
  marcadas : List Bool
  totalAciertos : Nat
  limitePalabras : Nat
  yaGano : Bool := false
deriving DecidableEq, Repr

/-- `merge(left, right)` from gameLogic.ts: repeatedly take the strictly smaller
front element; on ties (`left[i] < right[j]` false) the right element is taken. -/
def merge : List String → List String → List String
  | [], right => right
  | left, [] => left
  | a :: l, b :: r => if a < b then a :: merge l (b :: r) else b :: merge (a :: l) r
termination_by l r => l.length + r.length

/-- `mergeSort(arr)` from gameLogic.ts: split at `Math.floor(arr.length / 2)`,
recursively sort both halves, merge. -/
def mergeSort (arr : List String) : List String :=
  if arr.length ≤ 1 then arr
  else
    let mid := arr.length / 2
    merge (mergeSort (arr.take mid)) (mergeSort (arr.drop mid))
termination_by arr.length
decreasing_by
  · simp only [List.length_take]
    omega
  · simp only [List.length_drop]
    omega

/-- A word list in non-decreasing lexicographic order. -/
def SortedLe (l : List String) : Prop := l.Pairwise (· ≤ ·)

theorem merge_perm (l r : List String) : List.Perm (merge l r) (l ++ r) := by
  induction l generalizing r with
  | nil => cases r <;> simp [merge]
  | cons a l ih =>
    induction r with
    | nil => simp [merge]
    | cons b r ihr =>
      by_cases h : a < b
      · simp only [merge, h, if_true, List.cons_append]
        exact (ih (b :: r)).cons a
      · simp only [merge, h, if_false]
        exact (ihr.cons b).trans List.perm_middle.symm

theorem mem_merge {x : String} {l r : List String} :
    x ∈ merge l r ↔ x ∈ l ∨ x ∈ r := by
  rw [(merge_perm l r).mem_iff, List.mem_append]

theorem merge_sorted {l r : List String} (hl : SortedLe l) (hr : SortedLe r) :
    SortedLe (merge l r) := by
  induction l generalizing r with
  | nil =>
    cases r with
    | nil => simp [merge, SortedLe]
    | cons b r => simpa [merge] using hr
  | cons a l ih =>
    induction r with
    | nil => simpa [merge, SortedLe] using hl
    | cons b r ihr =>
      rcases List.pairwise_cons.mp hl with ⟨ha, hl'⟩
      rcases List.pairwise_cons.mp hr with ⟨hb, hr'⟩
      by_cases h : a < b
      · simp only [merge, h, if_true]
        refine List.pairwise_cons.mpr ⟨?_, ih hl' hr⟩
        intro x hx
        rcases mem_merge.mp hx with hxl | hxr
        · exact ha x hxl
        · rcases List.mem_cons.mp hxr with rfl | hxr
          · exact le_of_lt h
          · exact le_trans (le_of_lt h) (hb x hxr)
      · simp only [merge, h, if_false]
        refine List.pairwise_cons.mpr ⟨?_, ihr hr'⟩
        intro x hx
        rcases mem_merge.mp hx with hxl | hxr
        · rcases List.mem_cons.mp hxl with rfl | hxl
          · exact le_of_not_lt h
          · exact le_trans (le_of_not_lt h) (ha x hxl)
        · exact hb x hxr

theorem mergeSort_perm (arr : List String) : List.Perm (mergeSort arr) arr := by
  induction arr using mergeSort.induct with
  | case1 arr h =>
    rw [mergeSort, if_pos h]
  | case2 arr h mid ihl ihr =>
    rw [mergeSort, if_neg h]
    refine ((merge_perm _ _).trans (List.Perm.append ihl ihr)).trans ?_
    rw [List.take_append_drop]

theorem mergeSort_sorted (arr : List String) : SortedLe (mergeSort arr) := by
  induction arr using mergeSort.induct with
  | case1 arr h =>
    rw [mergeSort, if_pos h]
    match arr, h with
    | [], _ => exact List.Pairwise.nil
    | [a], _ => simp [SortedLe]
  | case2 arr h mid ihl ihr =>
    rw [mergeSort, if_neg h]
    exact merge_sorted ihl ihr

theorem mergeSort_idem (arr : List String) : mergeSort (mergeSort arr) = mergeSort arr :=
  List.eq_of_perm_of_sorted (mergeSort_perm (mergeSort arr))
    (mergeSort_sorted _) (mergeSort_sorted _)

/-! ## Binary search marking

The `while (left <= right)` loop of `binarySearchMark` keeps inclusive bounds
`left`, `right`, where `right` may reach `-1`.  The embedding carries
`right1 = right + 1` (so both bounds are naturals): the guard `left <= right`
becomes `left < right1`, `mid = Math.floor((left + right) / 2)` becomes
`(left + right1 - 1) / 2`, and the updates `left = mid + 1` / `right = mid - 1`
become `left := mid + 1` / `right1 := mid`. -/

/-- `mid = Math.floor((left + right) / 2)` expressed through `right1 = right + 1`. -/
def midOf (left right1 : Nat) : Nat := (left + right1 - 1) / 2

/-- The index at which the search loop of `binarySearchMark` exits with a hit
(`palabras[mid] === palabra`), if it does.  Pure companion of `bsAux`:
it consults only `palabras`, exactly as the loop's control flow does. -/
def foundIdxAux (palabras : List String) (palabra : String) (left right1 : Nat) : Option Nat :=
  if left < right1 then
    if palabras.getD (midOf left right1) "" = palabra then some (midOf left right1)
    else if palabras.getD (midOf left right1) "" < palabra then
      foundIdxAux palabras palabra (midOf left right1 + 1) right1
    else foundIdxAux palabras palabra left (midOf left right1)
  else none
termination_by right1 - left
decreasing_by
  · simp only [midOf]
    omega
  · simp only [midOf]
    omega

/-- The search-and-mark loop of `binarySearchMark`, with the carton threaded as
state: on a hit at an unmarked midpoint, set the entry and bump `totalAciertos`,
then return `true`; on a hit at a marked midpoint, return `true` unchanged. -/
def bsAux (carton : Carton) (palabra : String) (left right1 : Nat) : Carton × Bool :=
  if left < right1 then
    if carton.palabras.getD (midOf left right1) "" = palabra then
      if carton.marcadas.getD (midOf left right1) false then (carton, true)
      else ({ carton with
                marcadas := carton.marcadas.set (midOf left right1) true,
                totalAciertos := carton.totalAciertos + 1 }, true)
    else if carton.palabras.getD (midOf left right1) "" < palabra then
      bsAux carton palabra (midOf left right1 + 1) right1
    else bsAux carton palabra left (midOf left right1)
  else (carton, false)
termination_by right1 - left
decreasing_by
  · simp only [midOf]
    omega
  · simp only [midOf]
    omega

/-- `binarySearchMark(carton, palabra)` from gameLogic.ts: `left = 0`,
`right = carton.palabras.length - 1` (i.e. `right1 = length`). -/
def binarySearchMark (carton : Carton) (palabra : String) : Carton × Bool :=
  bsAux carton palabra 0 carton.palabras.length

/-- Index found by a full-range search of a word list. -/
def foundIdx (palabras : List String) (palabra : String) : Option Nat :=
  foundIdxAux palabras palabra 0 palabras.length

/-- The marking loop is the pure index search followed by the single state
effect at the found index. -/
theorem bsAux_eq (carton : Carton) (palabra : String) (left right1 : Nat) :
    bsAux carton palabra left right1 =
      match foundIdxAux carton.palabras palabra left right1 with
      | none => (carton, false)
      | some mid =>
        if carton.marcadas.getD mid false then (carton, true)
        else ({ carton with
                  marcadas := carton.marcadas.set mid true,
                  totalAciertos := carton.totalAciertos + 1 }, true) := by
  induction left, right1 using bsAux.induct carton palabra with
  | case1 l r1 hlt hEq hMarked =>
    rw [bsAux, foundIdxAux]
    simp only [if_pos hlt, hEq, if_pos, hMarked, if_true]
  | case2 l r1 hlt hEq hMarked =>
    rw [bsAux, foundIdxAux]
    simp only [if_pos hlt, hEq, if_pos]
  | case3 l r1 hlt hNe hLt ih =>
    rw [bsAux, foundIdxAux]
    simp only [if_pos hlt, if_neg hNe, if_pos hLt]
    exact ih
  | case4 l r1 hlt hNe hNlt ih =>
    rw [bsAux, foundIdxAux]
    simp only [if_pos hlt, if_neg hNe, if_neg hNlt]
    exact ih
  | case5 l r1 hge =>
    rw [bsAux, foundIdxAux]
    simp only [if_neg hge]

theorem binarySearchMark_eq (carton : Carton) (palabra : String) :
    binarySearchMark carton palabra =
      match foundIdx carton.palabras palabra with
      | none => (carton, false)
      | some mid =>
        if carton.marcadas.getD mid false then (carton, true)
        else ({ carton with
                  marcadas := carton.marcadas.set mid true,
                  totalAciertos := carton.totalAciertos + 1 }, true) :=
  bsAux_eq carton palabra 0 carton.palabras.length

theorem sortedLe_getD_mono {p : List String} (hs : SortedLe p) {i j : Nat}
    (hij : i ≤ j) (hj : j < p.length) : p.getD i "" ≤ p.getD j "" := by
  rcases Nat.lt_or_ge i j with hlt | hge
  · rw [List.getD_eq_getElem p _ hj, List.getD_eq_getElem p _ (lt_of_le_of_lt hij hj)]
    exact List.pairwise_iff_getElem.mp hs i j (lt_of_le_of_lt hij hj) hj hlt
  · have : i = j := le_antisymm hij hge
    subst this
    exact le_refl _

theorem foundIdxAux_some_spec {p : List String} {w : String} {l r1 i : Nat}
    (hr : r1 ≤ p.length) (h : foundIdxAux p w l r1 = some i) :
    l ≤ i ∧ i < r1 ∧ i < p.length ∧ p.getD i "" = w := by
  induction l, r1 using foundIdxAux.induct p w with
  | case1 l r1 hlt hEq =>
    rw [foundIdxAux, if_pos hlt, if_pos hEq] at h
    obtain rfl : midOf l r1 = i := Option.some.inj h
    have hb : l ≤ midOf l r1 ∧ midOf l r1 < r1 := by
      simp only [midOf]
      omega
    exact ⟨hb.1, hb.2, lt_of_lt_of_le hb.2 hr, hEq⟩
  | case2 l r1 hlt hNe hLt ih =>
    rw [foundIdxAux, if_pos hlt, if_neg hNe, if_pos hLt] at h
    have := ih hr h
    have hb : l ≤ midOf l r1 := by
      simp only [midOf]
      omega
    exact ⟨le_trans hb (le_trans (Nat.le_succ _) this.1), this.2.1, this.2.2⟩
  | case3 l r1 hlt hNe hNlt ih =>
    rw [foundIdxAux, if_pos hlt, if_neg hNe, if_neg hNlt] at h
    have hb : midOf l r1 < r1 := by
      simp only [midOf]
      omega
    have := ih (le_trans (le_of_lt hb) hr) h
    exact ⟨this.1, lt_trans this.2.1 hb, this.2.2⟩
  | case4 l r1 hge =>
    rw [foundIdxAux, if_neg hge] at h
    exact absurd h (Option.noConfusion)

theorem foundIdxAux_none_not_mem {p : List String} {w : String} {l r1 : Nat}
    (hs : SortedLe p) (hr : r1 ≤ p.length)
    (hlo : ∀ j, j < l → j < p.length → p.getD j "" < w)
    (hhi : ∀ j, r1 ≤ j → j < p.length → w < p.getD j "")
    (h : foundIdxAux p w l r1 = none) : w ∉ p := by
  induction l, r1 using foundIdxAux.induct p w with
  | case1 l r1 hlt hEq =>
    rw [foundIdxAux, if_pos hlt, if_pos hEq] at h
    exact absurd h (Option.noConfusion)
  | case2 l r1 hlt hNe hLt ih =>
    rw [foundIdxAux, if_pos hlt, if_neg hNe, if_pos hLt] at h
    have hmid : midOf l r1 < r1 := by
      simp only [midOf]
      omega
    refine ih hr (fun j hj hjp => ?_) hhi h
    rcases Nat.lt_or_ge j l with hjl | hjl
    · exact hlo j hjl hjp
    · exact lt_of_le_of_lt
        (sortedLe_getD_mono hs (Nat.le_of_lt_succ hj) (lt_of_lt_of_le hmid hr)) hLt
  | case3 l r1 hlt hNe hNlt ih =>
    rw [foundIdxAux, if_pos hlt, if_neg hNe, if_neg hNlt] at h
    have hw : w < p.getD (midOf l r1) "" :=
      lt_of_le_of_ne (le_of_not_lt hNlt) (fun hc => hNe hc.symm)
    have hmid : midOf l r1 < r1 := by
      simp only [midOf]
      omega
    refine ih (le_trans (le_of_lt hmid) hr) hlo (fun j hj hjp => ?_) h
    rcases Nat.lt_or_ge j r1 with hjr | hjr
    · exact lt_of_lt_of_le hw (sortedLe_getD_mono hs hj hjp)
    · exact hhi j hjr hjp
  | case4 l r1 hge =>
    intro hmem
    rcases List.mem_iff_getElem.mp hmem with ⟨k, hk, hkw⟩
    have hgd : p.getD k "" = w := by
      rw [List.getD_eq_getElem p _ hk]
      exact hkw
    rcases Nat.lt_or_ge k l with hkl | hkl
    · exact absurd hgd (ne_of_lt (hlo k hkl hk))
    · exact absurd hgd.symm (ne_of_lt (hhi k (le_trans (Nat.le_of_not_lt hge) hkl) hk))

/-- Full-range search on a sorted list succeeds exactly on the members. -/
theorem foundIdx_isSome_iff_mem {p : List String} {w : String} (hs : SortedLe p) :
    (foundIdx p w).isSome = true ↔ w ∈ p := by
  constructor
  · intro h
    rcases Option.isSome_iff_exists.mp h with ⟨i, hi⟩
    have := foundIdxAux_some_spec (le_refl _) hi
    rw [← this.2.2.2, List.getD_eq_getElem p _ this.2.2.1]
    exact List.getElem_mem _
  · intro hmem
    cases hfi : foundIdx p w with
    | some i => rfl
    | none =>
      exact absurd hmem
        (foundIdxAux_none_not_mem hs (le_refl _)
          (fun j hj _ => absurd hj (Nat.not_lt_zero j))
          (fun j hj hjp => absurd (lt_of_le_of_lt hj hjp) (lt_irrefl _)) hfi)

theorem foundIdx_some_spec {p : List String} {w : String} {i : Nat}
    (h : foundIdx p w = some i) : i < p.length ∧ p.getD i "" = w :=
  ⟨(foundIdxAux_some_spec (le_refl _) h).2.2.1,
   (foundIdxAux_some_spec (le_refl _) h).2.2.2⟩

/-! ## Winner selection -/

/-- The comparator key of `checkWinnersGreedy`:
`missingA = a.limitePalabras - a.totalAciertos` (as an integer, so it is
negative when a carton somehow holds more hits than its limit). -/
def missing (c : Carton) : Int := (c.limitePalabras : Int) - (c.totalAciertos : Int)

/-- ES2019 specifies `Array.prototype.sort` as stable, and the comparator
`(a, b) => missingA - missingB` is consistent, so `candidates.sort(...)` is the
unique stable ascending reordering by `missing` — computed here by stable
insertion (an earlier element stays before later elements with an equal key). -/
def insertByMissing (c : Carton) : List Carton → List Carton
  | [] => [c]
  | d :: ds => if missing c ≤ missing d then c :: d :: ds else d :: insertByMissing c ds

/-- `candidates.sort((a, b) => missingA - missingB)` as a stable sort. -/
def sortByMissing : List Carton → List Carton
  | [] => []
  | c :: cs => insertByMissing c (sortByMissing cs)

/-- The scan body of `checkWinnersGreedy`: collect cartons with
`totalAciertos === limitePalabras`, stop at the first incomplete one. -/
def complete (c : Carton) : Bool := c.totalAciertos == c.limitePalabras

/-- `checkWinnersGreedy(cartones)` from gameLogic.ts: copy, sort ascending by
words-still-needed, then scan from the front collecting complete cartons and
`break` at the first incomplete one. -/
def checkWinnersGreedy (cartones : List Carton) : List Carton :=
  (sortByMissing cartones).takeWhile complete

theorem complete_iff {c : Carton} : complete c = true ↔ missing c = 0 := by
  simp only [complete, missing, beq_iff_eq]
  omega

theorem insertByMissing_perm (c : Carton) (l : List Carton) :
    List.Perm (insertByMissing c l) (c :: l) := by
  induction l with
  | nil => exact List.Perm.refl _
  | cons d ds ih =>
    rw [insertByMissing]
    by_cases h : missing c ≤ missing d
    · rw [if_pos h]
    · rw [if_neg h]
      exact (ih.cons d).trans (List.Perm.swap c d ds)

theorem sortByMissing_perm (l : List Carton) : List.Perm (sortByMissing l) l := by
  induction l with
  | nil => exact List.Perm.refl _
  | cons c cs ih =>
    exact (insertByMissing_perm c (sortByMissing cs)).trans (ih.cons c)

theorem mem_sortByMissing {x : Carton} {l : List Carton} :
    x ∈ sortByMissing l ↔ x ∈ l :=
  (sortByMissing_perm l).mem_iff

theorem sortByMissing_pairwise (l : List Carton) :
    (sortByMissing l).Pairwise (fun a b => missing a ≤ missing b) := by
  induction l with
  | nil => exact List.Pairwise.nil
  | cons c cs ih =>
    rw [sortByMissing]
    have key : ∀ (m : List Carton), m.Pairwise (fun a b => missing a ≤ missing b) →
        (insertByMissing c m).Pairwise (fun a b => missing a ≤ missing b) := by
      intro m hm
      induction m with
      | nil => simp [insertByMissing]
      | cons d ds ihm =>
        rcases List.pairwise_cons.mp hm with ⟨hd, hds⟩
        rw [insertByMissing]
        by_cases h : missing c ≤ missing d
        · rw [if_pos h]
          refine List.pairwise_cons.mpr ⟨?_, hm⟩
          intro x hx
          rcases List.mem_cons.mp hx with rfl | hx
          · exact h
          · exact le_trans h (hd x hx)
        · rw [if_neg h]
          refine List.pairwise_cons.mpr ⟨?_, ihm hds⟩
          intro x hx
          rcases List.mem_cons.mp ((insertByMissing_perm c ds).mem_iff.mp hx) with rfl | hx
          · exact le_of_lt (lt_of_not_le h)
          · exact hd x hx
    exact key (sortByMissing cs) ih

theorem filter_insertByMissing_of_complete {c : Carton} {l : List Carton}
    (h0 : missing c = 0) (hl : ∀ d ∈ l, 0 ≤ missing d) :
    insertByMissing c l = c :: l := by
  cases l with
  | nil => rfl
  | cons d ds =>
    rw [insertByMissing, if_pos]
    rw [h0]
    exact hl d (List.mem_cons_self d ds)

theorem filter_insertByMissing_of_incomplete {c : Carton} {l : List Carton}
    (h0 : complete c = false) :
    (insertByMissing c l).filter complete = l.filter complete := by
  induction l with
  | nil => simp [insertByMissing, h0]
  | cons d ds ih =>
    rw [insertByMissing]
    by_cases h : missing c ≤ missing d
    · rw [if_pos h, List.filter_cons, h0]
      simp
    · rw [if_neg h, List.filter_cons, List.filter_cons, ih]

theorem filter_sortByMissing (l : List Carton) (hl : ∀ d ∈ l, 0 ≤ missing d) :
    (sortByMissing l).filter complete = l.filter complete := by
  induction l with
  | nil => rfl
  | cons c cs ih =>
    have hcs : ∀ d ∈ cs, 0 ≤ missing d := fun d hd => hl d (List.mem_cons_of_mem c hd)
    rw [sortByMissing]
    cases hc : complete c with
    | true =>
      rw [filter_insertByMissing_of_complete (complete_iff.mp hc)
            (fun d hd => hcs d (mem_sortByMissing.mp hd)),
          List.filter_cons, List.filter_cons, hc, ih hcs]
    | false =>
      rw [filter_insertByMissing_of_incomplete hc, List.filter_cons, hc, ih hcs]
      simp

theorem takeWhile_eq_filter_of_sorted {s : List Carton}
    (hs : s.Pairwise (fun a b => missing a ≤ missing b))
    (hnn : ∀ c ∈ s, 0 ≤ missing c) :
    s.takeWhile complete = s.filter complete := by
  induction s with
  | nil => rfl
  | cons c cs ih =>
    rcases List.pairwise_cons.mp hs with ⟨hc, hcs⟩
    rw [List.takeWhile_cons, List.filter_cons]
    cases hcomp : complete c with
    | true =>
      rw [ih hcs (fun d hd => hnn d (List.mem_cons_of_mem c hd))]
      simp
    | false =>
      have hpos : 0 < missing c := by
        rcases lt_or_eq_of_le (hnn c (List.mem_cons_self c cs)) with h | h
        · exact h
        · exact absurd (complete_iff.mpr h.symm) (by rw [hcomp]; intro hcontra; cases hcontra)
      have : cs.filter complete = [] := by
        rw [List.filter_eq_nil_iff]
        intro d hd hcomp'
        have : missing d = 0 := complete_iff.mp hcomp'
        have := hc d hd
        omega
      rw [this]
      simp

/-- On inputs where every carton satisfies `totalAciertos ≤ limitePalabras`,
the greedy sorted scan with early break equals the plain order-preserving
filter of complete cartons. -/
theorem checkWinnersGreedy_eq_filter (l : List Carton)
    (h : ∀ c ∈ l, c.totalAciertos ≤ c.limitePalabras) :
    checkWinnersGreedy l = l.filter complete := by
  have hnn : ∀ c ∈ l, 0 ≤ missing c := by
    intro c hc
    have := h c hc
    simp only [missing]
    omega
  rw [checkWinnersGreedy,
    takeWhile_eq_filter_of_sorted (sortByMissing_pairwise l)
      (fun c hc => hnn c (mem_sortByMissing.mp hc)),
    filter_sortByMissing l hnn]

theorem mem_checkWinnersGreedy {c : Carton} {l : List Carton}
    (h : c ∈ checkWinnersGreedy l) : c ∈ l ∧ complete c = true := by
  have h1 := List.takeWhile_prefix (l := sortByMissing l) (p := complete)
  constructor
  · exact mem_sortByMissing.mp (h1.sublist.mem h)
  · exact List.mem_takeWhile_imp h

/-! ## Card parser

The JavaScript string helpers (`trim`, `split`, `startsWith`, `includes`) are
written out structurally over the character list `String.data`, with the
library semantics, so that they also evaluate on concrete lines. -/

/-- `line.trim()`: remove leading and trailing whitespace. -/
def trim (s : String) : String :=
  ⟨((s.data.dropWhile Char.isWhitespace).reverse.dropWhile Char.isWhitespace).reverse⟩

/-- Accumulating splitter for `line.split(/\s+/)`: whitespace runs separate
tokens, and no empty tokens are produced (the behavior of the JS call on the
already-trimmed lines it is applied to). -/
def splitWsAux : List Char → List Char → List String
  | [], acc => if acc.isEmpty then [] else [⟨acc.reverse⟩]
  | c :: cs, acc =>
    if c.isWhitespace then
      if acc.isEmpty then splitWsAux cs [] else ⟨acc.reverse⟩ :: splitWsAux cs []
    else splitWsAux cs (c :: acc)

/-- `line.split(/\s+/)` on an already-trimmed line. -/
def splitWs (s : String) : List String := splitWsAux s.data []

/-- Accumulating splitter for `text.split(/\r?\n/)`: one segment per newline
separator, empty segments kept (they are skipped as blank lines downstream);
a carriage return before the newline survives here and is erased by the
immediate `trim` of the line. -/
def splitLinesAux : List Char → List Char → List String
  | [], acc => [⟨acc.reverse⟩]
  | c :: cs, acc =>
    if c = '\n' then ⟨acc.reverse⟩ :: splitLinesAux cs []
    else splitLinesAux cs (c :: acc)

/-- `text.split(/\r?\n/)`. -/
def splitLines (s : String) : List String := splitLinesAux s.data []

/-- `line.startsWith("J")`. -/
def startsWithJ (line : String) : Bool :=
  match line.data with
  | [] => false
  | c :: _ => c = 'J'

/-- The owner-line test of the parser:
`line.startsWith("J") && line.length > 1 && line.length < 10 && !line.includes(" ")`. -/
def isOwnerLine (line : String) : Bool :=
  startsWithJ line && decide (1 < line.length) && decide (line.length < 10)
    && !(line.data.contains ' ')

/-- `id.substring(0, 2)` matched against the four language codes. -/
def parseIdioma (code : String) : Option Idioma :=
  if code = "SP" then some .SP
  else if code = "EN" then some .EN
  else if code = "PT" then some .PT
  else if code = "DT" then some .DT
  else none

/-- Language code as text (for error messages). -/
def idiomaCode : Idioma → String
  | .SP => "SP"
  | .EN => "EN"
  | .PT => "PT"
  | .DT => "DT"

def errSinJugador (n : Nat) : String :=
  "Línea " ++ toString n ++ ": Se encontró un cartón sin jugador asignado (falta Jx antes)."

def errIdInvalido (n : Nat) (id : String) : String :=
  "Línea " ++ toString n ++ ": ID inválido " ++ id ++ "."

def errIdDuplicado (n : Nat) (id : String) : String :=
  "Línea " ++ toString n ++ ": ID duplicado " ++ id ++ "."

def errIdiomaDesconocido (n : Nat) (id : String) : String :=
  "Línea " ++ toString n ++ ": Idioma desconocido en ID " ++ id ++ "."

def errExcedeLimite (n : Nat) (id : String) (maxPermitido : Nat) : String :=
  "Línea " ++ toString n ++ " (" ++ id ++ "): Excede límite de "
    ++ toString maxPermitido ++ " palabras."

def errBancoNoCargado (n : Nat) (idioma : Idioma) : String :=
  "Línea " ++ toString n ++ ": Banco de palabras no cargado para " ++ idiomaCode idioma ++ "."

def errPalabrasNoPermitidas (n : Nat) (id : String) (ps : List String) : String :=
  "Línea " ++ toString n ++ " (" ++ id ++ "): Palabras no permitidas ["
    ++ String.intercalate ", " ps ++ "]"

/-- The loop state of `processInputData`: current owner label (`jugadorActual`,
empty while unset), the session-wide known-id set, accepted cartons, collected
errors, and the 1-based line counter. -/
structure ParseState where
  jugadorActual : String
  known : List String
  cartones : List Carton
  errores : List String
  lineNumber : Nat
deriving Repr

/-- One iteration of the `for (const rawLine of lines)` loop of
`processInputData`.  All steps are translated from gameLogic.ts except one:
the duplicate-id rejection.
Modelled from the spec: the repository's `processInputData` receives the set
of already-known card ids (`idsExistentes`, passed by both callers in
page.tsx, a parameter absent from the provided copy of gameLogic.ts); a card
line whose id was seen already — in this parse or an earlier load — is
rejected with an error rather than silently overwritten, and an accepted id
joins the known set for subsequent duplicate detection. -/
def processLine (bancosPalabras : Idioma → Option (List String))
    (st : ParseState) (rawLine : String) : ParseState :=
  let n := st.lineNumber + 1
  let line := trim rawLine
  if line = "" then { st with lineNumber := n }
  else if isOwnerLine line then { st with jugadorActual := line, lineNumber := n }
  else if st.jugadorActual = "" then
    { st with errores := st.errores ++ [errSinJugador n], lineNumber := n }
  else
    let parts := splitWs line
    if parts.length < 2 then { st with lineNumber := n }
    else
      let id := parts.headD ""
      if id.length < 3 then
        { st with errores := st.errores ++ [errIdInvalido n id], lineNumber := n }
      else if id ∈ st.known then
        { st with errores := st.errores ++ [errIdDuplicado n id], lineNumber := n }
      else
        match parseIdioma (id.take 2) with
        | none =>
          { st with errores := st.errores ++ [errIdiomaDesconocido n id], lineNumber := n }
        | some idioma =>
          let palabrasRaw := parts.tail
          if LIMITES idioma < palabrasRaw.length then
            { st with
                errores := st.errores ++ [errExcedeLimite n id (LIMITES idioma)]
                lineNumber := n }
          else
            match bancosPalabras idioma with
            | none =>
              { st with errores := st.errores ++ [errBancoNoCargado n idioma], lineNumber := n }
            | some banco =>
              if banco.length = 0 then
                { st with errores := st.errores ++ [errBancoNoCargado n idioma], lineNumber := n }
              else
                let palabrasInvalidas := palabrasRaw.filter (fun p => !(banco.contains p))
                if 0 < palabrasInvalidas.length then
                  { st with
                      errores := st.errores ++ [errPalabrasNoPermitidas n id palabrasInvalidas]
                      lineNumber := n }
                else
                  let palabrasOrdenadas := mergeSort palabrasRaw
                  let nuevo : Carton :=
                    { id := id
                      jugador := st.jugadorActual
                      idioma := idioma
                      palabras := palabrasOrdenadas
                      marcadas := List.replicate palabrasOrdenadas.length false
                      totalAciertos := 0
                      limitePalabras := palabrasOrdenadas.length }
                  { st with
                      known := id :: st.known
                      cartones := st.cartones ++ [nuevo]
                      lineNumber := n }

/-- `processInputData(text, bancosPalabras, idsExistentes)`: split the text
into lines (`/\r?\n/`; a carriage return left at a line end is erased by the
immediate `trim`) and fold the line parser over them.  Returns
`{ cartones, errores }`. -/
def processInputData (text : String) (bancosPalabras : Idioma → Option (List String))
    (idsExistentes : List String) : List Carton × List String :=
  let lines := splitLines text
  let final := lines.foldl (processLine bancosPalabras)
    { jugadorActual := "", known := idsExistentes, cartones := [], errores := [], lineNumber := 0 }
  (final.cartones, final.errores)

/-- The card invariants: words sorted non-decreasingly, `marcadas` aligned with
`palabras`, `totalAciertos` counting the marked entries and bounded by
`limitePalabras`, which equals the word count. -/
def CartonInv (c : Carton) : Prop :=
  SortedLe c.palabras ∧ c.marcadas.length = c.palabras.length ∧
  c.totalAciertos = c.marcadas.count true ∧ c.totalAciertos ≤ c.limitePalabras ∧
  c.limitePalabras = c.palabras.length

/-- The parse-state invariant, relative to the initially known ids. -/
def StateInv (init : List String) (st : ParseState) : Prop :=
  (∀ c ∈ st.cartones, CartonInv c) ∧
  (st.cartones.map (fun c => c.id)).Nodup ∧
  (∀ c ∈ st.cartones, c.id ∉ init) ∧
  (∀ c ∈ st.cartones, c.id ∈ st.known) ∧
  (∀ i ∈ init, i ∈ st.known)

set_option maxHeartbeats 1000000 in
theorem processLine_inv {init : List String} (bancos : Idioma → Option (List String))
    (st : ParseState) (rawLine : String) (h : StateInv init st) :
    StateInv init (processLine bancos st rawLine) := by
  simp only [processLine]
  split
  · exact h
  split
  · exact h
  split
  · exact h
  split
  · exact h
  split
  · exact h
  split
  · exact h
  split
  · exact h
  split
  · exact h
  split
  · exact h
  split
  · exact h
  split
  · exact h
  have hdup : (splitWs (trim rawLine)).headD "" ∉ st.known := by assumption
  obtain ⟨h1, h2, h3, h4, h5⟩ := h
  refine ⟨?_, ?_, ?_, ?_, ?_⟩
  · intro c hc
    rcases List.mem_append.mp hc with hc | hc
    · exact h1 c hc
    · rcases List.mem_singleton.mp hc with rfl
      refine ⟨mergeSort_sorted _, List.length_replicate _ _, ?_, Nat.zero_le _, rfl⟩
      simp [List.count_replicate]
  · rw [List.map_append, List.nodup_append]
    refine ⟨h2, by simp, ?_⟩
    intro x hx hx'
    simp only [List.map_cons, List.map_nil, List.mem_singleton] at hx'
    rcases List.mem_map.mp hx with ⟨c, hc, rfl⟩
    exact hdup (hx' ▸ h4 c hc)
  · intro c hc
    rcases List.mem_append.mp hc with hc | hc
    · exact h3 c hc
    · rcases List.mem_singleton.mp hc with rfl
      exact fun hmem => hdup (h5 _ hmem)
  · intro c hc
    rcases List.mem_append.mp hc with hc | hc
    · exact List.mem_cons_of_mem _ (h4 c hc)
    · rcases List.mem_singleton.mp hc with rfl
      exact List.mem_cons_self _ _
  · exact fun i hi => List.mem_cons_of_mem _ (h5 i hi)

theorem foldl_processLine_inv {init : List String} (bancos : Idioma → Option (List String)) :
    ∀ (lines : List String) (st : ParseState), StateInv init st →
      StateInv init (lines.foldl (processLine bancos) st) := by
  intro lines
  induction lines with
  | nil => exact fun st h => h
  | cons line rest ih =>
    intro st h
    exact ih _ (processLine_inv bancos st line h)

theorem processInputData_inv (text : String) (bancos : Idioma → Option (List String))
    (idsExistentes : List String) :
    StateInv idsExistentes
      ((splitLines text).foldl (processLine bancos)
        { jugadorActual := "", known := idsExistentes, cartones := [], errores := [],
          lineNumber := 0 }) := by
  apply foldl_processLine_inv
  exact ⟨fun c hc => absurd hc (List.not_mem_nil c), List.nodup_nil,
    fun c hc => absurd hc (List.not_mem_nil c), fun c hc => absurd hc (List.not_mem_nil c),
    fun i hi => hi⟩

theorem count_true_set : ∀ (l : List Bool) (i : Nat), i < l.length →
    l.getD i false = false → (l.set i true).count true = l.count true + 1 := by
  intro l
  induction l with
  | nil =>
    intro i hi
    exact absurd hi (Nat.not_lt_zero i)
  | cons b t ih =>
    intro i hi hf
    cases i with
    | zero =>
      rw [List.getD_cons_zero] at hf
      subst hf
      simp [List.count_cons]
    | succ i =>
      rw [List.getD_cons_succ] at hf
      rw [List.set_cons_succ]
      have := ih i (Nat.lt_of_succ_lt_succ hi) hf
      simp only [List.count_cons, this]
      omega

/-- A marking call preserves the card invariants, never touches `palabras`
or `limitePalabras`, and never decreases `totalAciertos`. -/
theorem binarySearchMark_preserves (c : Carton) (w : String) (h : CartonInv c) :
    CartonInv (binarySearchMark c w).1 ∧
    (binarySearchMark c w).1.palabras = c.palabras ∧
    (binarySearchMark c w).1.limitePalabras = c.limitePalabras ∧
    c.totalAciertos ≤ (binarySearchMark c w).1.totalAciertos := by
  obtain ⟨hs, hlen, hcount, hle, hlim⟩ := h
  rw [binarySearchMark_eq]
  cases hfi : foundIdx c.palabras w with
  | none => exact ⟨⟨hs, hlen, hcount, hle, hlim⟩, rfl, rfl, le_refl _⟩
  | some mid =>
    dsimp only
    obtain ⟨hmidlen, hmidw⟩ := foundIdx_some_spec hfi
    by_cases hmk : c.marcadas.getD mid false = true
    · rw [if_pos hmk]
      exact ⟨⟨hs, hlen, hcount, hle, hlim⟩, rfl, rfl, le_refl _⟩
    · rw [if_neg hmk]
      dsimp only
      have hmk' : c.marcadas.getD mid false = false := by
        cases hval : c.marcadas.getD mid false
        · rfl
        · exact absurd hval hmk
      have hmidm : mid < c.marcadas.length := by rw [hlen]; exact hmidlen
      have hcnt : (c.marcadas.set mid true).count true = c.marcadas.count true + 1 :=
        count_true_set c.marcadas mid hmidm hmk'
      refine ⟨⟨hs, ?_, ?_, ?_, hlim⟩, rfl, rfl, Nat.le_succ _⟩
      · rw [List.length_set]
        exact hlen
      · rw [hcnt, hcount]
      · have hb : (c.marcadas.set mid true).count true ≤ (c.marcadas.set mid true).length :=
          List.count_le_length _ _
        rw [List.length_set, hlen, ← hlim] at hb
        rw [← hcount] at hcnt
        show c.totalAciertos + 1 ≤ c.limitePalabras
        omega

/-- A card line carrying an already-known id is rejected with an error and
produces no card: every other parse-state component is left unchanged. -/
theorem processLine_dup (bancos : Idioma → Option (List String)) (st : ParseState)
    (rawLine : String)
    (hblank : trim rawLine ≠ "")
    (howner : isOwnerLine (trim rawLine) = false)
    (hjug : st.jugadorActual ≠ "")
    (hparts : 2 ≤ (splitWs (trim rawLine)).length)
    (hidlen : 3 ≤ ((splitWs (trim rawLine)).headD "").length)
    (hdup : (splitWs (trim rawLine)).headD "" ∈ st.known) :
    processLine bancos st rawLine =
      { st with
          errores := st.errores ++
            [errIdDuplicado (st.lineNumber + 1) ((splitWs (trim rawLine)).headD "")]
          lineNumber := st.lineNumber + 1 } := by
  simp only [processLine]
  rw [if_neg hblank, if_neg (by simp [howner]), if_neg hjug,
    if_neg (by omega : ¬(splitWs (trim rawLine)).length < 2),
    if_neg (by omega : ¬((splitWs (trim rawLine)).headD "").length < 3),
    if_pos hdup]

/-- A candidate card line with fewer than two whitespace tokens is skipped
silently: no card, no error, owner context and known ids unchanged. -/
theorem processLine_short (bancos : Idioma → Option (List String)) (st : ParseState)
    (rawLine : String)
    (hblank : trim rawLine ≠ "")
    (howner : isOwnerLine (trim rawLine) = false)
    (hjug : st.jugadorActual ≠ "")
    (hparts : (splitWs (trim rawLine)).length < 2) :
    processLine bancos st rawLine = { st with lineNumber := st.lineNumber + 1 } := by
  simp only [processLine]
  rw [if_neg hblank, if_neg (by simp [howner]), if_neg hjug, if_pos hparts]

/-! ## Round scheduler (Fisher-Yates)

`generateRandomRounds` copies the input and runs
`for (let i = n - 1; i > 0; i--) { j = floor(random() * (i + 1)); swap i j }`.
The random source is made explicit as an oracle `ch : Nat → Nat` giving the
draw used at loop index `i`; `0 ≤ ch i ≤ i` models `Math.floor(Math.random()
* (i + 1))`. -/

/-- `[idiomas[i], idiomas[j]] = [idiomas[j], idiomas[i]]` (both reads happen
before either write, as in the JS destructuring assignment). -/
def swapList (l : List Idioma) (i j : Nat) : List Idioma :=
  (l.set i (l.getD j .SP)).set j (l.getD i .SP)

/-- The shuffle loop: `fyFrom ch i l` runs the body for indices `i, …, 1`. -/
def fyFrom (ch : Nat → Nat) : Nat → List Idioma → List Idioma
  | 0, l => l
  | i + 1, l => fyFrom ch i (swapList l (i + 1) (ch (i + 1)))

/-- `generateRandomRounds(idiomasDisponibles)` with the random draws passed
explicitly: start at `i = idiomas.length - 1`. -/
def generateRandomRounds (ch : Nat → Nat) (idiomasDisponibles : List Idioma) : List Idioma :=
  fyFrom ch (idiomasDisponibles.length - 1) idiomasDisponibles

/-- The same loop driven by the finite vector of draws it actually consumes,
listed from loop index `n-1` down to `1`: the entry consumed at a step is the
head, and the loop index at that step is the length of the remaining vector. -/
def fyVec : List Nat → List Idioma → List Idioma
  | [], l => l
  | j :: js, l => fyVec js (swapList l (js.length + 1) j)

/-- The draw vector `[ch i, ch (i-1), …, ch 1]` consumed by `fyFrom ch i`. -/
def choiceVec (ch : Nat → Nat) : Nat → List Nat
  | 0 => []
  | i + 1 => ch (i + 1) :: choiceVec ch i

/-- A draw vector is valid when every entry is within the range
`0 ≤ j ≤ i` of `Math.floor(Math.random() * (i + 1))` at its loop index. -/
def ValidVec : List Nat → Prop
  | [] => True
  | j :: js => j ≤ js.length + 1 ∧ ValidVec js

theorem swapList_length (l : List Idioma) (i j : Nat) :
    (swapList l i j).length = l.length := by
  simp [swapList]

theorem getD_set_perm : ∀ (t : List Idioma) (k : Nat) (x : Idioma), k < t.length →
    List.Perm (t.getD k .SP :: t.set k x) (x :: t) := by
  intro t
  induction t with
  | nil =>
    intro k x hk
    exact absurd hk (Nat.not_lt_zero k)
  | cons y s ih =>
    intro k x hk
    cases k with
    | zero =>
      simp only [List.getD_cons_zero, List.set_cons_zero]
      exact List.Perm.swap x y s
    | succ k =>
      simp only [List.getD_cons_succ, List.set_cons_succ]
      have h1 : List.Perm (s.getD k .SP :: y :: s.set k x) (y :: (s.getD k .SP :: s.set k x)) :=
        List.Perm.swap y (s.getD k .SP) (s.set k x)
      exact h1.trans (((ih k x (Nat.lt_of_succ_lt_succ hk)).cons y).trans (List.Perm.swap x y s))

theorem swapList_perm : ∀ (l : List Idioma) (i j : Nat), i < l.length → j < l.length →
    List.Perm (swapList l i j) l := by
  intro l
  induction l with
  | nil =>
    intro i j hi _
    exact absurd hi (Nat.not_lt_zero i)
  | cons x t ih =>
    intro i j hi hj
    cases i with
    | zero =>
      cases j with
      | zero =>
        simp only [swapList, List.getD_cons_zero, List.set_cons_zero]
        exact List.Perm.refl _
      | succ j =>
        simp only [swapList, List.getD_cons_succ, List.getD_cons_zero,
          List.set_cons_zero, List.set_cons_succ]
        exact getD_set_perm t j x (Nat.lt_of_succ_lt_succ hj)
    | succ i =>
      cases j with
      | zero =>
        simp only [swapList, List.getD_cons_succ, List.getD_cons_zero,
          List.set_cons_succ, List.set_cons_zero]
        exact getD_set_perm t i x (Nat.lt_of_succ_lt_succ hi)
      | succ j =>
        simp only [swapList, List.getD_cons_succ, List.set_cons_succ]
        exact (ih i j (Nat.lt_of_succ_lt_succ hi) (Nat.lt_of_succ_lt_succ hj)).cons x

theorem fyFrom_perm (ch : Nat → Nat) (hch : ∀ k, ch k ≤ k) :
    ∀ (i : Nat) (l : List Idioma), i < l.length → List.Perm (fyFrom ch i l) l := by
  intro i
  induction i with
  | zero => exact fun l _ => List.Perm.refl l
  | succ i ih =>
    intro l hi
    have hsw : List.Perm (swapList l (i + 1) (ch (i + 1))) l :=
      swapList_perm l (i + 1) (ch (i + 1)) hi (lt_of_le_of_lt (hch (i + 1)) hi)
    have hlen : (swapList l (i + 1) (ch (i + 1))).length = l.length :=
      swapList_length l (i + 1) (ch (i + 1))
    exact (ih _ (by omega)).trans hsw

/-- For every in-range behavior of the random source, the shuffle returns a
permutation of its input. -/
theorem generateRandomRounds_perm (ch : Nat → Nat) (hch : ∀ k, ch k ≤ k)
    (l : List Idioma) : List.Perm (generateRandomRounds ch l) l := by
  cases l with
  | nil => exact List.Perm.refl _
  | cons x t => exact fyFrom_perm ch hch _ _ (by simp)

theorem choiceVec_length (ch : Nat → Nat) : ∀ i, (choiceVec ch i).length = i := by
  intro i
  induction i with
  | zero => rfl
  | succ i ih => simp [choiceVec, ih]

theorem fyFrom_eq_fyVec (ch : Nat → Nat) :
    ∀ (i : Nat) (l : List Idioma), fyFrom ch i l = fyVec (choiceVec ch i) l := by
  intro i
  induction i with
  | zero => exact fun l => rfl
  | succ i ih =>
    intro l
    show fyFrom ch i (swapList l (i + 1) (ch (i + 1))) =
      fyVec (choiceVec ch i) (swapList l ((choiceVec ch i).length + 1) (ch (i + 1)))
    rw [choiceVec_length]
    exact ih _

/-- `generateRandomRounds` consumes exactly the draw vector `choiceVec`. -/
theorem generateRandomRounds_eq_fyVec (ch : Nat → Nat) (l : List Idioma) :
    generateRandomRounds ch l = fyVec (choiceVec ch (l.length - 1)) l :=
  fyFrom_eq_fyVec ch (l.length - 1) l

theorem validVec_choiceVec (ch : Nat → Nat) (hch : ∀ k, ch k ≤ k) :
    ∀ i, ValidVec (choiceVec ch i) := by
  intro i
  induction i with
  | zero => trivial
  | succ i ih =>
    refine ⟨?_, ih⟩
    rw [choiceVec_length]
    exact hch (i + 1)

theorem swapList_append {u₁ u₂ : List Idioma} {i j : Nat}
    (hi : i < u₁.length) (hj : j < u₁.length) :
    swapList (u₁ ++ u₂) i j = swapList u₁ i j ++ u₂ := by
  unfold swapList
  rw [List.getD_append _ _ _ _ hj, List.getD_append _ _ _ _ hi,
    List.set_append, if_pos hi, List.set_append,
    if_pos (by rw [List.length_set]; exact hj)]

theorem fyVec_append_last : ∀ (js : List Nat) (u₁ : List Idioma) (x : Idioma),
    ValidVec js → js.length < u₁.length →
    fyVec js (u₁ ++ [x]) = fyVec js u₁ ++ [x] := by
  intro js
  induction js with
  | nil => exact fun u₁ x _ _ => rfl
  | cons j js ih =>
    intro u₁ x hv hlen
    obtain ⟨hj, hvtail⟩ := hv
    have hi : js.length + 1 < u₁.length := by simpa using hlen
    have hjlt : j < u₁.length := lt_of_le_of_lt hj hi
    show fyVec js (swapList (u₁ ++ [x]) (js.length + 1) j) = fyVec (j :: js) u₁ ++ [x]
    rw [swapList_append hi hjlt]
    exact ih _ x hvtail (by rw [swapList_length]; omega)

theorem swapList_last {l : List Idioma} {m j : Nat} (hl : l.length = m + 2)
    (hj : j ≤ m + 1) : (swapList l (m + 1) j).getD (m + 1) .SP = l.getD j .SP := by
  unfold swapList
  by_cases hjm : j = m + 1
  · subst hjm
    rw [List.set_set]
    rw [List.getD_eq_getElem _ _ (by rw [List.length_set]; omega), List.getElem_set,
      if_pos rfl]
  · rw [List.getD_eq_getElem _ _ (by rw [List.length_set, List.length_set]; omega),
      List.getElem_set, if_neg hjm, List.getElem_set, if_pos rfl]

theorem swapList_decomp {l : List Idioma} {m j : Nat} (hl : l.length = m + 2)
    (hj : j ≤ m + 1) :
    swapList l (m + 1) j = (swapList l (m + 1) j).dropLast ++ [l.getD j .SP] ∧
    (swapList l (m + 1) j).dropLast.length = m + 1 := by
  have hlen : (swapList l (m + 1) j).length = m + 2 := by rw [swapList_length, hl]
  have hne : swapList l (m + 1) j ≠ [] := by
    intro hc
    rw [hc] at hlen
    cases hlen
  have hlast : (swapList l (m + 1) j).getLast hne = l.getD j .SP := by
    rw [List.getLast_eq_getElem,
      ← List.getD_eq_getElem (swapList l (m + 1) j) Idioma.SP (by omega)]
    have hidx : (swapList l (m + 1) j).length - 1 = m + 1 := by omega
    rw [hidx]
    exact swapList_last hl hj
  refine ⟨?_, ?_⟩
  · conv_lhs => rw [← List.dropLast_append_getLast hne]
    rw [hlast]
  · rw [List.length_dropLast, hlen]
    omega

/-- For a duplicate-free input, every rearrangement `t` of `l` is produced by
exactly one valid draw vector: the shuffle is a bijection between valid draw
vectors and permutations of the input.  With the draws unbiased and
independent this makes every permutation equally likely. -/
theorem fyVec_existsUnique :
    ∀ (n : Nat) (l : List Idioma), l.length = n → l.Nodup → ∀ t, List.Perm t l →
      ∃! v : List Nat, (ValidVec v ∧ v.length = l.length - 1) ∧ fyVec v l = t := by
  intro n
  induction n with
  | zero =>
    intro l hl hnd t ht
    have hlnil : l = [] := List.length_eq_zero.mp hl
    subst hlnil
    have htnil : t = [] := ht.eq_nil
    subst htnil
    refine ⟨[], ⟨⟨trivial, rfl⟩, rfl⟩, ?_⟩
    rintro v ⟨⟨_, hvlen⟩, _⟩
    exact List.length_eq_zero.mp (by simpa using hvlen)
  | succ n ih =>
    intro l hl hnd t ht
    cases n with
    | zero =>
      obtain ⟨a, ha⟩ : ∃ a, l = [a] := by
        cases l with
        | nil => simp at hl
        | cons x t' =>
          cases t' with
          | nil => exact ⟨x, rfl⟩
          | cons y t2 => simp at hl
      subst ha
      have htone : t = [a] := List.perm_singleton.mp ht
      subst htone
      refine ⟨[], ⟨⟨trivial, rfl⟩, rfl⟩, ?_⟩
      rintro v ⟨⟨_, hvlen⟩, _⟩
      exact List.length_eq_zero.mp (by simpa using hvlen)
    | succ m =>
      have hl2 : l.length = m + 2 := hl
      have htlen : t.length = m + 2 := by rw [ht.length_eq, hl2]
      have htne : t ≠ [] := by
        intro hc
        rw [hc] at htlen
        cases htlen
      have htdecomp : t.dropLast ++ [t.getLast htne] = t :=
        List.dropLast_append_getLast htne
      have hbmem : t.getLast htne ∈ l := ht.mem_iff.mp (List.getLast_mem htne)
      have hj₀lt : List.indexOf (t.getLast htne) l < l.length :=
        List.indexOf_lt_length.mpr hbmem
      have hj₀le : List.indexOf (t.getLast htne) l ≤ m + 1 := by omega
      have hgd : l.getD (List.indexOf (t.getLast htne) l) .SP = t.getLast htne := by
        rw [List.getD_eq_getElem _ _ hj₀lt]
        exact List.getElem_indexOf hj₀lt
      obtain ⟨hsw_eq, hu₁len⟩ := swapList_decomp hl2 hj₀le
      rw [hgd] at hsw_eq
      have hswperm : List.Perm (swapList l (m + 1) (List.indexOf (t.getLast htne) l)) l :=
        swapList_perm _ _ _ (by omega) hj₀lt
      have hu₁nodup : (swapList l (m + 1) (List.indexOf (t.getLast htne) l)).dropLast.Nodup := by
        have hnd2 : ((swapList l (m + 1) (List.indexOf (t.getLast htne) l)).dropLast
            ++ [t.getLast htne]).Nodup := by
          rw [← hsw_eq]
          exact (hswperm.nodup_iff).mpr hnd
        exact hnd2.of_append_left
      have ht₁perm : List.Perm t.dropLast
          (swapList l (m + 1) (List.indexOf (t.getLast htne) l)).dropLast := by
        have h1 : List.Perm (t.dropLast ++ [t.getLast htne])
            ((swapList l (m + 1) (List.indexOf (t.getLast htne) l)).dropLast
              ++ [t.getLast htne]) := by
          rw [htdecomp, ← hsw_eq]
          exact ht.trans hswperm.symm
        exact (((List.perm_append_singleton _ _).symm.trans h1).trans
          (List.perm_append_singleton _ _)).cons_inv
      obtain ⟨js, ⟨⟨hjsval, hjslen⟩, hjs⟩, hjsuniq⟩ :=
        ih (swapList l (m + 1) (List.indexOf (t.getLast htne) l)).dropLast hu₁len
          hu₁nodup t.dropLast ht₁perm
      have hjslen' : js.length = m := by
        rw [hu₁len] at hjslen
        simpa using hjslen
      refine ⟨List.indexOf (t.getLast htne) l :: js, ⟨⟨⟨?_, hjsval⟩, ?_⟩, ?_⟩, ?_⟩
      · rw [hjslen']
        exact hj₀le
      · simp only [List.length_cons, hjslen', hl2]
        omega
      · show fyVec js (swapList l (js.length + 1) (List.indexOf (t.getLast htne) l)) = t
        rw [hjslen', hsw_eq,
          fyVec_append_last js _ _ hjsval (by rw [hjslen', hu₁len]; omega), hjs, htdecomp]
      · rintro v ⟨⟨hvval, hvlen⟩, hveq⟩
        cases v with
        | nil =>
          exfalso
          rw [hl2] at hvlen
          simp at hvlen
        | cons jp jsp =>
          obtain ⟨hjple, hjspval⟩ := hvval
          have hjsplen : jsp.length = m := by
            rw [hl2] at hvlen
            simpa using hvlen
          have hveq2 : fyVec jsp (swapList l (m + 1) jp) = t := by
            have hstep : fyVec (jp :: jsp) l = fyVec jsp (swapList l (jsp.length + 1) jp) := rfl
            rw [hstep, hjsplen] at hveq
            exact hveq
          have hjple2 : jp ≤ m + 1 := by omega
          obtain ⟨hsw_eq2, hu₁len2⟩ := swapList_decomp hl2 hjple2
          rw [hsw_eq2, fyVec_append_last jsp _ _ hjspval
            (by rw [hjsplen, hu₁len2]; omega)] at hveq2
          rw [← htdecomp] at hveq2
          have hpair : fyVec jsp (swapList l (m + 1) jp).dropLast = t.dropLast ∧
              l.getD jp .SP = t.getLast htne := by
            rw [← List.concat_eq_append, ← List.concat_eq_append] at hveq2
            exact ⟨(List.concat_inj.mp hveq2).1, (List.concat_inj.mp hveq2).2⟩
          have hjplt : jp < l.length := by omega
          have hjpeq : jp = List.indexOf (t.getLast htne) l := by
            have h1 : l.getD jp .SP = l.getD (List.indexOf (t.getLast htne) l) .SP := by
              rw [hpair.2, hgd]
            rw [List.getD_eq_getElem _ _ hjplt, List.getD_eq_getElem _ _ hj₀lt] at h1
            exact (hnd.getElem_inj_iff).mp h1
          subst hjpeq
          have hjsp_eq : jsp = js := by
            refine hjsuniq jsp ⟨⟨hjspval, ?_⟩, hpair.1⟩
            rw [hjsplen, hu₁len]
            omega
          rw [hjsp_eq]

/-! ## Session orchestration (`page.tsx`)

The React state relevant to a word call, and `handleCantarPalabra` as a state
transformer.  In-place carton mutation becomes `List.map`; the winning cartons
stored in `ganadores` carry `yaGano := true`, as their JS objects do after the
aliased flag update. -/

structure GameState where
  cartones : List Carton
  palabraActual : String
  historialPalabras : List String
  rondas : List Idioma
  rondaIndex : Nat
  ganadores : List Carton
  mensajeRonda : Option String
  partidaTerminada : Bool
  errorPalabra : Option String
  bancosPalabras : Idioma → Option (List String)

/-- `idiomaActual = !partidaTerminada ? rondas[rondaIndex] : null` (an
out-of-range round index also yields none). -/
def idiomaActual (s : GameState) : Option Idioma :=
  if s.partidaTerminada then none else s.rondas.get? s.rondaIndex

def errPalabraNoExiste (w : String) : String :=
  "La palabra " ++ w ++ " no existe en el diccionario oficial."

def mensajeSinGanadores : String := "No hubo cartones ganadores en esta ronda."

/-- `handleCantarPalabra` from page.tsx.  Guard order follows the source:
invalid state (`!idiomaActual || rondaBloqueada`) returns before clearing the
banners; an empty word returns after clearing them; a word absent from the
loaded dictionary of the active language is rejected with `errorPalabra` set
and nothing else changed; otherwise mark, select winners, flag them, store the
call. -/
def handleCantarPalabra (s : GameState) : GameState :=
  match idiomaActual s with
  | none => s
  | some idioma =>
    if 0 < s.ganadores.length then s
    else
      let s1 : GameState := { s with errorPalabra := none, mensajeRonda := none }
      if (trim s.palabraActual) = "" then s1
      else
        let palabraNormalizada := (trim s.palabraActual)
        let rechazo : Bool :=
          match s.bancosPalabras idioma with
          | some banco => !(banco.contains palabraNormalizada)
          | none => false
        if rechazo then
          { s1 with errorPalabra := some (errPalabraNoExiste palabraNormalizada) }
        else
          let nuevosCartones := s.cartones.map (fun c =>
            if c.idioma = idioma ∧ c.yaGano = false
            then (binarySearchMark c palabraNormalizada).1 else c)
          let candidatosValidos := nuevosCartones.filter
            (fun c => c.idioma == idioma && !c.yaGano)
          let nuevosGanadores := checkWinnersGreedy candidatosValidos
          if 0 < nuevosGanadores.length then
            { s1 with
                cartones := nuevosCartones.map (fun c =>
                  if c.id ∈ nuevosGanadores.map (fun g => g.id)
                  then { c with yaGano := true } else c)
                ganadores := nuevosGanadores.map (fun g => { g with yaGano := true })
                mensajeRonda := none
                historialPalabras := palabraNormalizada :: s.historialPalabras
                palabraActual := "" }
          else
            { s1 with
                cartones := nuevosCartones
                mensajeRonda := some mensajeSinGanadores
                historialPalabras := palabraNormalizada :: s.historialPalabras
                palabraActual := "" }

/-- Calls in an invalid state (`!idiomaActual || rondaBloqueada`) are silent
no-ops: the state is returned untouched, before the banners are even cleared. -/
theorem handleCantarPalabra_invalid_state (s : GameState)
    (h : idiomaActual s = none ∨ s.ganadores ≠ []) : handleCantarPalabra s = s := by
  unfold handleCantarPalabra
  rcases h with h | h
  · rw [h]
  · cases hi : idiomaActual s with
    | none => rfl
    | some idioma =>
      dsimp only
      have hlen : 0 < s.ganadores.length := by
        cases hg : s.ganadores with
        | nil => exact absurd hg h
        | cons g gs => simp [hg]
      rw [if_pos hlen]

/-- A trimmed word absent from the active language's loaded dictionary is
rejected before any marking: only `errorPalabra` (set to the dictionary
message) and `mensajeRonda` (cleared) change. -/
theorem handleCantarPalabra_unknown_word (s : GameState) (idioma : Idioma)
    (banco : List String)
    (hidioma : idiomaActual s = some idioma)
    (hnoganadores : s.ganadores = [])
    (hnonempty : (trim s.palabraActual) ≠ "")
    (hbanco : s.bancosPalabras idioma = some banco)
    (habsent : (trim s.palabraActual) ∉ banco) :
    handleCantarPalabra s =
      { s with
          errorPalabra := some (errPalabraNoExiste ((trim s.palabraActual)))
          mensajeRonda := none } := by
  unfold handleCantarPalabra
  rw [hidioma]
  simp only [hnoganadores, List.length_nil, lt_irrefl, if_false]
  rw [if_neg hnonempty]
  rw [show (match s.bancosPalabras idioma with
      | some banco => !(banco.contains ((trim s.palabraActual)))
      | none => false) = true by rw [hbanco]; simp [habsent]]
  rfl

/-! ## Repeated words can never complete a card -/

/-- Every marked entry sits exactly at the index where the full-range binary
search finds that entry's word.  Since the search is deterministic in
`palabras` (which marking never changes), at most this one index per distinct
word value can ever be marked. -/
def MarkedOnlyFound (c : Carton) : Prop :=
  ∀ i, i < c.marcadas.length → c.marcadas.getD i false = true →
    foundIdx c.palabras (c.palabras.getD i "") = some i

/-- A sequence of `binarySearchMark` calls, e.g. the calls of successive
rounds against one card. -/
def markCalls (c : Carton) (ws : List String) : Carton :=
  ws.foldl (fun c w => (binarySearchMark c w).1) c

theorem binarySearchMark_markedOnlyFound (c : Carton) (w : String)
    (_hlen : c.marcadas.length = c.palabras.length)
    (h : MarkedOnlyFound c) : MarkedOnlyFound (binarySearchMark c w).1 := by
  rw [binarySearchMark_eq]
  cases hfi : foundIdx c.palabras w with
  | none => exact h
  | some mid =>
    dsimp only
    obtain ⟨hmidlen, hmidw⟩ := foundIdx_some_spec hfi
    by_cases hmk : c.marcadas.getD mid false = true
    · rw [if_pos hmk]
      exact h
    · rw [if_neg hmk]
      intro i hi hmark
      dsimp only at hi hmark ⊢
      rw [List.length_set] at hi
      by_cases him : i = mid
      · subst him
        rw [hmidw]
        exact hfi
      · have hstay : (c.marcadas.set mid true).getD i false = c.marcadas.getD i false := by
          rw [List.getD_eq_getElem _ _ (by rw [List.length_set]; exact hi),
            List.getD_eq_getElem _ _ hi, List.getElem_set, if_neg (fun hc => him hc.symm)]
        rw [hstay] at hmark
        exact h i hi hmark

theorem count_true_eq_countP_range (l : List Bool) :
    l.count true = List.countP (fun i => l.getD i false) (List.range l.length) := by
  induction l with
  | nil => rfl
  | cons b t ih =>
    rw [List.length_cons, List.range_succ_eq_map, List.countP_cons, List.countP_map]
    have hcomp : ((fun i => (b :: t).getD i false) ∘ Nat.succ) = (fun i => t.getD i false) := by
      funext i
      simp [List.getD_cons_succ]
    rw [hcomp, ← ih]
    cases b <;> simp [List.count_cons]

theorem nodup_length_le {d e : List String} (hd : d.Nodup) (hsub : ∀ x ∈ d, x ∈ e) :
    d.length ≤ e.length := by
  calc d.length = d.toFinset.card := (List.toFinset_card_of_nodup hd).symm
    _ ≤ e.toFinset.card := by
        refine Finset.card_le_card ?_
        intro x hx
        rw [List.mem_toFinset]
        exact hsub x (List.mem_toFinset.mp hx)
    _ ≤ e.length := List.toFinset_card_le e

/-- Under the invariants, the hit count never exceeds the number of distinct
words on the card. -/
theorem totalAciertos_le_dedup (c : Carton) (hinv : CartonInv c)
    (hmof : MarkedOnlyFound c) : c.totalAciertos ≤ c.palabras.dedup.length := by
  obtain ⟨hs, hlen, hcount, hle, hlim⟩ := hinv
  have h1 : c.totalAciertos = ((List.range c.marcadas.length).filter
      (fun i => c.marcadas.getD i false)).length := by
    rw [hcount, count_true_eq_countP_range, List.countP_eq_length_filter]
  have hLnodup : ((List.range c.marcadas.length).filter
      (fun i => c.marcadas.getD i false)).Nodup :=
    (List.nodup_range _).filter _
  have hmapNodup : (((List.range c.marcadas.length).filter
      (fun i => c.marcadas.getD i false)).map (fun i => c.palabras.getD i "")).Nodup := by
    refine List.Nodup.map_on ?_ hLnodup
    intro x hx y hy hxy
    have hx' := List.mem_filter.mp hx
    have hy' := List.mem_filter.mp hy
    have hxlt : x < c.marcadas.length := List.mem_range.mp hx'.1
    have hylt : y < c.marcadas.length := List.mem_range.mp hy'.1
    have hfx := hmof x hxlt hx'.2
    have hfy := hmof y hylt hy'.2
    rw [hxy] at hfx
    exact Option.some.inj (hfx.symm.trans hfy)
  have hsub : ∀ w ∈ ((List.range c.marcadas.length).filter
      (fun i => c.marcadas.getD i false)).map (fun i => c.palabras.getD i ""),
      w ∈ c.palabras.dedup := by
    intro w hw
    rcases List.mem_map.mp hw with ⟨i, hi, rfl⟩
    have hi' := List.mem_filter.mp hi
    have hilt : i < c.marcadas.length := List.mem_range.mp hi'.1
    rw [List.mem_dedup, List.getD_eq_getElem _ _ (by rw [← hlen]; exact hilt)]
    exact List.getElem_mem _
  have h2 := nodup_length_le hmapNodup hsub
  rw [List.length_map] at h2
  omega

theorem dedup_length_lt {l : List String} (h : ¬ l.Nodup) : l.dedup.length < l.length := by
  rcases Nat.lt_or_ge l.dedup.length l.length with hlt | hge
  · exact hlt
  · exfalso
    have hsub := List.dedup_sublist l
    have hlen : l.dedup.length = l.length := le_antisymm hsub.length_le hge
    exact h ((hsub.eq_of_length hlen) ▸ l.nodup_dedup)

theorem markCalls_preserves (ws : List String) : ∀ (c : Carton),
    CartonInv c → MarkedOnlyFound c →
    CartonInv (markCalls c ws) ∧ MarkedOnlyFound (markCalls c ws) ∧
    (markCalls c ws).palabras = c.palabras ∧
    (markCalls c ws).limitePalabras = c.limitePalabras := by
  induction ws with
  | nil => exact fun c h1 h2 => ⟨h1, h2, rfl, rfl⟩
  | cons w ws ih =>
    intro c h1 h2
    have hstep := binarySearchMark_preserves c w h1
    have hmof : MarkedOnlyFound (binarySearchMark c w).1 :=
      binarySearchMark_markedOnlyFound c w h1.2.1 h2
    have hrest := ih (binarySearchMark c w).1 hstep.1 hmof
    refine ⟨hrest.1, hrest.2.1, ?_, ?_⟩
    · show (markCalls (binarySearchMark c w).1 ws).palabras = c.palabras
      rw [hrest.2.2.1, hstep.2.1]
    · show (markCalls (binarySearchMark c w).1 ws).limitePalabras = c.limitePalabras
      rw [hrest.2.2.2, hstep.2.2.1]

theorem getD_replicate_false (n i : Nat) : (List.replicate n false).getD i false = false := by
  rcases Nat.lt_or_ge i n with hlt | hge
  · rw [List.getD_eq_getElem _ _ (by simpa using hlt), List.getElem_replicate]
  · exact List.getD_eq_default _ _ (by simpa using hge)

theorem getD_set_ne {α : Type} {l : List α} {i j : Nat} (h : j ≠ i) (a d : α) :
    (l.set j a).getD i d = l.getD i d := by
  rcases Nat.lt_or_ge i l.length with hlt | hge
  · rw [List.getD_eq_getElem _ _ (by rw [List.length_set]; exact hlt),
      List.getD_eq_getElem _ _ hlt, List.getElem_set, if_neg h]
  · rw [List.getD_eq_default _ _ (by rw [List.length_set]; exact hge),
      List.getD_eq_default _ _ hge]

theorem binarySearchMark_found_iff (c : Carton) (p : String) (hs : SortedLe c.palabras) :
    (binarySearchMark c p).2 = true ↔ p ∈ c.palabras := by
  rw [binarySearchMark_eq, ← foundIdx_isSome_iff_mem hs]
  cases hfi : foundIdx c.palabras p with
  | none => simp
  | some mid =>
    dsimp only
    by_cases hmk : c.marcadas.getD mid false = true
    · rw [if_pos hmk]
      simp
    · rw [if_neg hmk]
      simp

theorem binarySearchMark_no_false_mark (c : Carton) (p : String) {i : Nat}
    (hmark : (binarySearchMark c p).1.marcadas.getD i false = true) :
    c.marcadas.getD i false = true ∨ c.palabras.getD i "" = p := by
  rw [binarySearchMark_eq] at hmark
  cases hfi : foundIdx c.palabras p with
  | none =>
    rw [hfi] at hmark
    exact Or.inl hmark
  | some mid =>
    rw [hfi] at hmark
    dsimp only at hmark
    by_cases hmk : c.marcadas.getD mid false = true
    · rw [if_pos hmk] at hmark
      exact Or.inl hmark
    · rw [if_neg hmk] at hmark
      dsimp only at hmark
      by_cases him : i = mid
      · subst him
        exact Or.inr (foundIdx_some_spec hfi).2
      · rw [getD_set_ne (fun hc => him hc.symm)] at hmark
        exact Or.inl hmark

theorem binarySearchMark_hit_spec (c : Carton) (p : String)
    (hfound : (binarySearchMark c p).2 = true) :
    ∃ mid, mid < c.palabras.length ∧ c.palabras.getD mid "" = p ∧
      (c.marcadas.getD mid false = false →
        (binarySearchMark c p).1.marcadas = c.marcadas.set mid true ∧
        (binarySearchMark c p).1.totalAciertos = c.totalAciertos + 1) ∧
      (c.marcadas.getD mid false = true → (binarySearchMark c p).1 = c) := by
  rw [binarySearchMark_eq] at hfound ⊢
  cases hfi : foundIdx c.palabras p with
  | none =>
    rw [hfi] at hfound
    exact absurd hfound Bool.false_ne_true
  | some mid =>
    dsimp only
    obtain ⟨hmidlen, hmidw⟩ := foundIdx_some_spec hfi
    refine ⟨mid, hmidlen, hmidw, ?_, ?_⟩
    · intro hmk
      rw [if_neg (by rw [hmk]; exact Bool.false_ne_true)]
      exact ⟨rfl, rfl⟩
    · intro hmk
      rw [if_pos hmk]

theorem binarySearchMark_idem (c : Carton) (p : String) (hs : SortedLe c.palabras)
    (hlen : c.marcadas.length = c.palabras.length) (hmem : p ∈ c.palabras) :
    binarySearchMark (binarySearchMark c p).1 p = ((binarySearchMark c p).1, true) := by
  rcases Option.isSome_iff_exists.mp ((foundIdx_isSome_iff_mem hs).mpr hmem)
    with ⟨mid, hfi⟩
  obtain ⟨hmidlen, hmidw⟩ := foundIdx_some_spec hfi
  by_cases hmk : c.marcadas.getD mid false = true
  · have h1 : binarySearchMark c p = (c, true) := by
      rw [binarySearchMark_eq, hfi]
      dsimp only
      rw [if_pos hmk]
    rw [h1]
    exact h1
  · have h1 : binarySearchMark c p =
        ({ c with
            marcadas := c.marcadas.set mid true,
            totalAciertos := c.totalAciertos + 1 }, true) := by
      rw [binarySearchMark_eq, hfi]
      dsimp only
      rw [if_neg hmk]
    rw [h1]
    dsimp only
    rw [binarySearchMark_eq]
    dsimp only
    rw [hfi]
    dsimp only
    rw [if_pos (by
      rw [List.getD_eq_getElem _ _ (by rw [List.length_set, hlen]; exact hmidlen),
        List.getElem_set, if_pos rfl])]

/-! ## Concrete witness data -/

/-- Example word banks. -/
def bancosEjemplo : Idioma → Option (List String)
  | .SP => some ["casa", "perro", "sol"]
  | _ => none

/-- A complete single-word carton. -/
def cartonCompleto : Carton :=
  { id := "SP111", jugador := "J1", idioma := .SP, palabras := ["sol"],
    marcadas := [true], totalAciertos := 1, limitePalabras := 1 }

/-- A fresh single-word carton. -/
def cartonFresco : Carton :=
  { id := "SP222", jugador := "J1", idioma := .SP, palabras := ["casa"],
    marcadas := [false], totalAciertos := 0, limitePalabras := 1 }

/-- An already-won complete carton. -/
def cartonGanado : Carton :=
  { id := "SP333", jugador := "J2", idioma := .SP, palabras := ["sol"],
    marcadas := [true], totalAciertos := 1, limitePalabras := 1, yaGano := true }

/-- A fresh carton carrying the same word twice. -/
def cartonRepetido : Carton :=
  { id := "SP444", jugador := "J3", idioma := .SP, palabras := ["casa", "casa"],
    marcadas := [false, false], totalAciertos := 0, limitePalabras := 2 }

/-- A parse state with an established owner and one known id. -/
def stEjemplo : ParseState :=
  { jugadorActual := "J1", known := ["SP123"], cartones := [], errores := [],
    lineNumber := 3 }

/-- A session state in a Spanish round before any call. -/
def estadoEjemplo : GameState :=
  { cartones := [cartonFresco], palabraActual := "gato", historialPalabras := [],
    rondas := [Idioma.SP], rondaIndex := 0, ganadores := [], mensajeRonda := none,
    partidaTerminada := false, errorPalabra := none, bancosPalabras := bancosEjemplo }

/-! ## The claims -/

/-- C1: In every parse (Load), a card line whose id is already known —
accepted earlier in the same parse, or passed in through the known-ids input
from an earlier load — is rejected with an error and produces no card (only
the line counter advances); and globally, the ids of the accepted cards are
mutually distinct and distinct from every initially known id.  The
duplicate-id step itself is modelled from the spec (see `processLine`): its
callers pass `idsExistentes`, but the check is absent from the provided copy
of gameLogic.ts. -/
theorem claim_C1 (bancos : Idioma → Option (List String)) (st : ParseState)
    (rawLine text : String) (idsExistentes : List String)
    (hblank : trim rawLine ≠ "") (howner : isOwnerLine (trim rawLine) = false)
    (hjug : st.jugadorActual ≠ "") (hparts : 2 ≤ (splitWs (trim rawLine)).length)
    (hidlen : 3 ≤ ((splitWs (trim rawLine)).headD "").length)
    (hdup : (splitWs (trim rawLine)).headD "" ∈ st.known) :
    (processLine bancos st rawLine).cartones = st.cartones ∧
    (processLine bancos st rawLine).errores = st.errores ++
      [errIdDuplicado (st.lineNumber + 1) ((splitWs (trim rawLine)).headD "")] ∧
    ((processInputData text bancos idsExistentes).1.map (fun c => c.id)).Nodup ∧
    (∀ c ∈ (processInputData text bancos idsExistentes).1, c.id ∉ idsExistentes) := by
  have hd := processLine_dup bancos st rawLine hblank howner hjug hparts hidlen hdup
  refine ⟨by rw [hd], by rw [hd], ?_, ?_⟩
  · exact (processInputData_inv text bancos idsExistentes).2.1
  · exact fun c hc => (processInputData_inv text bancos idsExistentes).2.2.1 c hc

/-- C1 witness: a concrete line re-using a known id is rejected cardless. -/
theorem claim_C1_witness :
    (processLine bancosEjemplo stEjemplo "SP123 casa").cartones = stEjemplo.cartones :=
  (claim_C1 bancosEjemplo stEjemplo "SP123 casa" "" [] (by decide) (by decide)
    (by decide) (by decide) (by decide) (by decide)).1

/-- C2: On a card whose `palabras` is sorted non-decreasingly (with `marcadas`
aligned to it), `binarySearchMark` returns true iff the word occurs; it never
newly marks a position holding a different word; on a hit, the found midpoint
holds the word and — if unmarked — is set with `totalAciertos` incremented by
exactly one, while a marked midpoint leaves the carton unchanged; calling the
same word again returns true and leaves `marcadas` and `totalAciertos`
untouched. -/
theorem claim_C2 (c : Carton) (p : String)
    (hs : SortedLe c.palabras) (hlen : c.marcadas.length = c.palabras.length) :
    ((binarySearchMark c p).2 = true ↔ p ∈ c.palabras) ∧
    (∀ i, (binarySearchMark c p).1.marcadas.getD i false = true →
      c.marcadas.getD i false = true ∨ c.palabras.getD i "" = p) ∧
    ((binarySearchMark c p).2 = true →
      ∃ mid, mid < c.palabras.length ∧ c.palabras.getD mid "" = p ∧
        (c.marcadas.getD mid false = false →
          (binarySearchMark c p).1.marcadas = c.marcadas.set mid true ∧
          (binarySearchMark c p).1.totalAciertos = c.totalAciertos + 1) ∧
        (c.marcadas.getD mid false = true → (binarySearchMark c p).1 = c)) ∧
    (p ∈ c.palabras →
      binarySearchMark (binarySearchMark c p).1 p = ((binarySearchMark c p).1, true)) :=
  ⟨binarySearchMark_found_iff c p hs,
   fun _ hmark => binarySearchMark_no_false_mark c p hmark,
   binarySearchMark_hit_spec c p,
   binarySearchMark_idem c p hs hlen⟩

/-- C2 witness. -/
theorem claim_C2_witness : (binarySearchMark cartonFresco "casa").2 = true :=
  (claim_C2 cartonFresco "casa" (by simp [cartonFresco, SortedLe]) rfl).1.mpr (by decide)

/-- C3: With every carton satisfying `totalAciertos ≤ limitePalabras` (the
lower bound `0 ≤ totalAciertos` is inherent in the `Nat` embedding), the
greedy scan — stable ascending sort by remaining words, collect until the
first incomplete carton — returns exactly the complete cartons in their input
relative order, i.e. it equals the plain unsorted filter; the early exit
loses no winner. -/
theorem claim_C3 (cartones : List Carton)
    (h : ∀ c ∈ cartones, c.totalAciertos ≤ c.limitePalabras) :
    checkWinnersGreedy cartones = cartones.filter complete :=
  checkWinnersGreedy_eq_filter cartones h

/-- C3 witness. -/
theorem claim_C3_witness :
    checkWinnersGreedy [cartonCompleto, cartonFresco] =
      [cartonCompleto, cartonFresco].filter complete :=
  claim_C3 [cartonCompleto, cartonFresco] (by decide)

/-- C4 counterexample: as stated — for every input list with no precondition
on the `yaGano` flags — the claim is false: `checkWinnersGreedy` never
consults `yaGano`, and on an input containing an already-won complete carton
it returns that carton among the winners. -/
theorem claim_C4_counterexample :
    cartonGanado ∈ checkWinnersGreedy [cartonGanado] ∧ cartonGanado.yaGano = true := by
  decide

/-- C4 (amended): on input lists whose cartons all have `yaGano = false` — the
only lists the caller ever passes, since `handleCantarPalabra` filters
`!c.yaGano` before invoking the selector (page.tsx) — no returned winner has
`yaGano = true`, the returned winners being a subset of the input. -/
theorem claim_C4 (cartones : List Carton) (h : ∀ c ∈ cartones, c.yaGano = false) :
    ∀ c ∈ checkWinnersGreedy cartones, c.yaGano = false :=
  fun c hc => h c (mem_checkWinnersGreedy hc).1

/-- C4 witness. -/
theorem claim_C4_witness : cartonCompleto.yaGano = false :=
  claim_C4 [cartonCompleto] (by decide) cartonCompleto (by decide)

/-- C5: a word call in an active round (`idiomaActual` set, no winners yet)
whose trimmed word is absent from the active language's loaded dictionary is
rejected before the marking engine runs: no carton changes, the call history
and the winners are unchanged, and the rejection is surfaced by setting
`errorPalabra` — unlike an invalid-state call, which returns the state
entirely untouched (so the two rejections are distinguishable). -/
theorem claim_C5 (s : GameState) (idioma : Idioma) (banco : List String)
    (hidioma : idiomaActual s = some idioma)
    (hnog : s.ganadores = [])
    (hne : trim s.palabraActual ≠ "")
    (hbanco : s.bancosPalabras idioma = some banco)
    (habsent : trim s.palabraActual ∉ banco) :
    (handleCantarPalabra s).cartones = s.cartones ∧
    (handleCantarPalabra s).historialPalabras = s.historialPalabras ∧
    (handleCantarPalabra s).ganadores = s.ganadores ∧
    (handleCantarPalabra s).errorPalabra = some (errPalabraNoExiste (trim s.palabraActual)) ∧
    (∀ t : GameState, idiomaActual t = none ∨ t.ganadores ≠ [] →
      handleCantarPalabra t = t) := by
  have h := handleCantarPalabra_unknown_word s idioma banco hidioma hnog hne hbanco habsent
  rw [h]
  exact ⟨rfl, rfl, rfl, rfl, fun t ht => handleCantarPalabra_invalid_state t ht⟩

/-- C5 witness at a concrete state and unknown word. -/
theorem claim_C5_witness :
    (handleCantarPalabra estadoEjemplo).cartones = estadoEjemplo.cartones :=
  (claim_C5 estadoEjemplo Idioma.SP ["casa", "perro", "sol"] (by decide) rfl
    (by decide) rfl (by decide)).1

/-- C6: every card accepted by the parser satisfies the card invariants —
`palabras` sorted non-decreasingly, `marcadas` of equal length,
`totalAciertos` equal to the number of true marks and within
`[0, limitePalabras]`, `limitePalabras = palabras.length` — and every marking
call preserves the invariants, never reorders or changes `palabras` or
`limitePalabras`, and never decreases `totalAciertos`. -/
theorem claim_C6 (text : String) (bancos : Idioma → Option (List String))
    (ids : List String) (c₀ : Carton) (w : String) (h₀ : CartonInv c₀) :
    (∀ c ∈ (processInputData text bancos ids).1, CartonInv c) ∧
    (CartonInv (binarySearchMark c₀ w).1 ∧
      (binarySearchMark c₀ w).1.palabras = c₀.palabras ∧
      (binarySearchMark c₀ w).1.limitePalabras = c₀.limitePalabras ∧
      c₀.totalAciertos ≤ (binarySearchMark c₀ w).1.totalAciertos) := by
  constructor
  · exact fun c hc => (processInputData_inv text bancos ids).1 c hc
  · exact binarySearchMark_preserves c₀ w h₀

/-- C6 witness. -/
theorem claim_C6_witness : CartonInv (binarySearchMark cartonFresco "casa").1 :=
  (claim_C6 "" bancosEjemplo [] cartonFresco "casa"
    ⟨by simp [cartonFresco, SortedLe], rfl, rfl, by decide, rfl⟩).2.1

/-- C7: `mergeSort` returns a permutation of its input (same multiset) in
non-decreasing lexicographic order; the caller's list is untouched (the
embedding is pure and builds a new list); applying `mergeSort` to its own
output returns the same sequence. -/
theorem claim_C7 (arr : List String) :
    List.Perm (mergeSort arr) arr ∧ SortedLe (mergeSort arr) ∧
    mergeSort (mergeSort arr) = mergeSort arr :=
  ⟨mergeSort_perm arr, mergeSort_sorted arr, mergeSort_idem arr⟩

/-- C7 witness. -/
theorem claim_C7_witness :
    List.Perm (mergeSort ["casa"]) ["casa"] ∧ SortedLe (mergeSort ["casa"]) ∧
    mergeSort (mergeSort ["casa"]) = mergeSort ["casa"] :=
  claim_C7 ["casa"]

/-- C8: for every in-range behavior of the random source
(`ch k ≤ k`, modelling `Math.floor(Math.random() * (k + 1))`), the scheduler
returns a permutation of its input languages — same multiset, same length —
without consulting card state or mutating its input (the embedding is pure);
and on a duplicate-free input every rearrangement is produced by exactly one
valid draw vector, so with unbiased independent draws (all `n!` valid vectors
equally likely) every permutation is equally likely. -/
theorem claim_C8 (ch : Nat → Nat) (l : List Idioma)
    (hch : ∀ k, ch k ≤ k) (hnd : l.Nodup) :
    List.Perm (generateRandomRounds ch l) l ∧
    (generateRandomRounds ch l).length = l.length ∧
    generateRandomRounds ch l = fyVec (choiceVec ch (l.length - 1)) l ∧
    ValidVec (choiceVec ch (l.length - 1)) ∧
    (∀ t, List.Perm t l →
      ∃! v : List Nat, (ValidVec v ∧ v.length = l.length - 1) ∧ fyVec v l = t) :=
  ⟨generateRandomRounds_perm ch hch l, (generateRandomRounds_perm ch hch l).length_eq,
   generateRandomRounds_eq_fyVec ch l, validVec_choiceVec ch hch _,
   fun t ht => fyVec_existsUnique l.length l rfl hnd t ht⟩

/-- C8 witness. -/
theorem claim_C8_witness :
    List.Perm (generateRandomRounds (fun _ => 0) [Idioma.SP, Idioma.EN])
      [Idioma.SP, Idioma.EN] :=
  (claim_C8 (fun _ => 0) [Idioma.SP, Idioma.EN] (fun k => Nat.zero_le k) (by decide)).1

/-- C9: a non-blank line that is not an owner line, reached with an owner
context established, and splitting into fewer than two whitespace tokens, is
skipped silently: no card and no error is produced, owner context and known
ids are unchanged, only the line counter advances — and the fold then
continues with the next line. -/
theorem claim_C9 (bancos : Idioma → Option (List String)) (st : ParseState)
    (rawLine : String)
    (hblank : trim rawLine ≠ "") (howner : isOwnerLine (trim rawLine) = false)
    (hjug : st.jugadorActual ≠ "") (hparts : (splitWs (trim rawLine)).length < 2) :
    processLine bancos st rawLine = { st with lineNumber := st.lineNumber + 1 } ∧
    (processLine bancos st rawLine).cartones = st.cartones ∧
    (processLine bancos st rawLine).errores = st.errores := by
  have h := processLine_short bancos st rawLine hblank howner hjug hparts
  exact ⟨h, by rw [h], by rw [h]⟩

/-- C9 witness: a one-token line is skipped silently. -/
theorem claim_C9_witness :
    processLine bancosEjemplo stEjemplo "SP123" =
      { stEjemplo with lineNumber := stEjemplo.lineNumber + 1 } :=
  (claim_C9 bancosEjemplo stEjemplo "SP123" (by decide) (by decide) (by decide)
    (by decide)).1

/-- C10: a fresh card holding the same word at two or more indices can never
reach `totalAciertos = limitePalabras`: the deterministic binary search lands
on one fixed index per word value, so at most one index per distinct value is
ever marked; `totalAciertos` stays bounded by the number of distinct words
(`dedup.length`), strictly below `limitePalabras`, after any sequence of
marking calls — the card can never satisfy the winning test. -/
theorem claim_C10 (c : Carton) (ws : List String)
    (hs : SortedLe c.palabras)
    (hfresh : c.marcadas = List.replicate c.palabras.length false)
    (htotal : c.totalAciertos = 0)
    (hlim : c.limitePalabras = c.palabras.length)
    (hdup : ¬ c.palabras.Nodup) :
    (markCalls c ws).totalAciertos ≤ c.palabras.dedup.length ∧
    (markCalls c ws).totalAciertos < c.limitePalabras ∧
    complete (markCalls c ws) = false := by
  have hinv : CartonInv c := by
    refine ⟨hs, ?_, ?_, ?_, hlim⟩
    · rw [hfresh, List.length_replicate]
    · rw [htotal, hfresh]
      simp [List.count_replicate]
    · rw [htotal]
      exact Nat.zero_le _
  have hmof : MarkedOnlyFound c := by
    intro i hi hmark
    rw [hfresh, getD_replicate_false] at hmark
    exact absurd hmark Bool.false_ne_true
  obtain ⟨hinvm, hmofm, hpal, hliml⟩ := markCalls_preserves ws c hinv hmof
  have hbound := totalAciertos_le_dedup _ hinvm hmofm
  rw [hpal] at hbound
  have hstrict : c.palabras.dedup.length < c.palabras.length := dedup_length_lt hdup
  have hlt : (markCalls c ws).totalAciertos < c.limitePalabras := by
    rw [hlim]
    omega
  refine ⟨hbound, hlt, ?_⟩
  have hne : (markCalls c ws).totalAciertos ≠ (markCalls c ws).limitePalabras := by
    rw [hliml]
    exact Nat.ne_of_lt hlt
  simp only [complete, beq_eq_false_iff_ne, ne_eq]
  exact hne

/-- C10 witness. -/
theorem claim_C10_witness :
    (markCalls cartonRepetido ["casa"]).totalAciertos < cartonRepetido.limitePalabras :=
  (claim_C10 cartonRepetido ["casa"] (by simp [cartonRepetido, SortedLe]) rfl rfl rfl
    (by decide)).2.1

end Bingo
